import Mathlib

/-!
Verification of the Hangman game (`src/hangman_advanced.py`).

The Python program is shallowly embedded: strings are `List Char` where
character-level processing matters and `String` elsewhere, Python integers
are `Int`, dictionaries with insertion order are association lists, and the
two fallible file operations are modelled over an optional file content.
Python's stable in-place `list.sort(key=..., reverse=True)` is modelled by
`List.insertionSort` with the descending-score relation: a stable sort's
output is uniquely determined by the relation and the input order, so this
is the exact list the source produces.
-/

namespace Hangman

/-- MAX_HIGH_SCORES from the source. -/
def MAX_HIGH_SCORES : Nat := 10

/-- SCORE_CORRECT_GUESS from the source. -/
def SCORE_CORRECT_GUESS : Int := 10

/-- SCORE_INCORRECT_GUESS from the source. -/
def SCORE_INCORRECT_GUESS : Int := -5

/-- SCORE_HINT_PENALTY from the source. -/
def SCORE_HINT_PENALTY : Int := -15

/-- SCORE_WIN_BONUS from the source. -/
def SCORE_WIN_BONUS : Int := 50

/-- DIFFICULTY_LEVELS from the source: lives per difficulty. -/
def DIFFICULTY_LEVELS : List (String × Int) := [("easy", 8), ("medium", 6), ("hard", 4)]

/-- One element of the persisted high-score JSON array. -/
structure Entry where
  name : String
  score : Int
  category : String
  difficulty : String
deriving DecidableEq

/-- Descending-score order used by `save_high_scores` (`reverse=True` on the
`score` key). -/
def scoreGE (a b : Entry) : Prop := b.score ≤ a.score

instance : DecidableRel scoreGE := fun a b => inferInstanceAs (Decidable (b.score ≤ a.score))

instance : IsTotal Entry scoreGE := ⟨fun a b => le_total b.score a.score⟩

instance : IsTrans Entry scoreGE := ⟨fun _ _ _ h1 h2 => le_trans h2 h1⟩

/-- The stable descending sort performed by `scores.sort(key=..., reverse=True)`. -/
def sortDesc (l : List Entry) : List Entry := List.insertionSort scoreGE l

/-- Model of `save_high_scores`: sorts the caller's list in place, then writes the top
`MAX_HIGH_SCORES` of it.  Returns `(list the caller holds after the call,
list written to the file)`: the truncation `scores = scores[:MAX_HIGH_SCORES]`
rebinds the local name only, so the caller's list stays untruncated. -/
def save_high_scores (scores : List Entry) : List Entry × List Entry :=
  let sorted := sortDesc scores
  (sorted, sorted.take MAX_HIGH_SCORES)

/-- Model of `load_high_scores` over a model of the file system: `file` is the content
of the high-score file when it exists, and `decode` abstracts `json.load`
(`none` = `json.JSONDecodeError`).  Both failure branches are caught and
yield `[]`; the function is total, so no error reaches the caller. -/
def load_high_scores (decode : String → Option (List Entry)) (file : Option String) :
    List Entry :=
  match file with
  | none => []
  | some s =>
    match decode s with
    | none => []
    | some v => v

/-- Python `str.strip` on a whole string: drop whitespace from both ends. -/
def pyStripStr (s : String) : String :=
  String.mk (((s.toList.dropWhile Char.isWhitespace).reverse.dropWhile
    Char.isWhitespace).reverse)

/-- Python `str.capitalize` (applied to the difficulty before saving). -/
def pyCapitalize (s : String) : String :=
  match s.toList with
  | [] => ""
  | c :: cs => String.mk (c.toUpper :: cs.map Char.toLower)

/-- The record returned by `play_hangman`. -/
structure GameResult where
  won : Bool
  score : Int
  category : String
  difficulty : String

/-- What the post-round block of `main` does with the result. -/
inductive PostOutcome where
  | noOffer
  | skippedFull
  | declined
  | saved
deriving DecidableEq

/-- The condition under which `main` skips the name prompt:
`not any(hs['score'] < game_result['score'] for hs in high_scores)
 and len(high_scores) >= MAX_HIGH_SCORES`. -/
def skipCondition (scores : List Entry) (s : Int) : Bool :=
  !(scores.any fun hs => decide (hs.score < s)) && decide (MAX_HIGH_SCORES ≤ scores.length)

/-- The post-round high-score block of `main` (lines 378-393): given the round
result, the session's in-memory high-score list and the raw name input, it
returns the outcome and the in-memory list the session holds afterwards. -/
def afterRound (result : GameResult) (scores : List Entry) (nameInput : String) :
    PostOutcome × List Entry :=
  if result.won || decide (0 < result.score) then
    if skipCondition scores result.score then (.skippedFull, scores)
    else
      let name := pyStripStr nameInput
      if name = "" then (.declined, scores)
      else
        let newScores := scores ++
          [⟨name, result.score, result.category, pyCapitalize result.difficulty⟩]
        (.saved, (save_high_scores newScores).1)
  else (.noOffer, scores)

/-! ### Game engine (`play_hangman`, lines 268-356) -/

/-- Round status after each terminal check. -/
inductive Status where
  | inProgress
  | won
  | lost
deriving DecidableEq

/-- The mutable round state of `play_hangman`. -/
structure RoundState where
  secret_word : List Char
  guessed_letters : List Char
  incorrect_guesses : List Char
  word_progress : List Char
  remaining_lives : Int
  hints_available : Int
  score : Int
  status : Status
deriving DecidableEq

/-- The in-place update loop `for index, letter in enumerate(secret_word):
if letter == guess: word_progress[index] = guess`. -/
def updateProgress (secret_word word_progress : List Char) (g : Char) : List Char :=
  List.zipWith (fun letter pc => if letter = g then letter else pc) secret_word word_progress

/-- The letter-guess branch of the game loop (lines 324-339). -/
def applyGuess (s : RoundState) (guess : Char) : RoundState :=
  if guess ∈ s.secret_word then
    { s with guessed_letters := guess :: s.guessed_letters,
             score := s.score + SCORE_CORRECT_GUESS,
             word_progress := updateProgress s.secret_word s.word_progress guess }
  else
    { s with guessed_letters := guess :: s.guessed_letters,
             incorrect_guesses := guess :: s.incorrect_guesses,
             remaining_lives := s.remaining_lives - 1,
             score := s.score + SCORE_INCORRECT_GUESS }

/-- The candidate list built by `provide_hint`: occurrences (with
multiplicity) of letters of the secret word not yet guessed. -/
def unguessedLetters (secret_word guessed_letters : List Char) : List Char :=
  secret_word.filter fun letter => decide (letter ∉ guessed_letters)

/-- Model of `provide_hint` (lines 258-263).  `random.choice(u)` evaluates `u` at a
uniformly random index; the index is exposed as parameter `i` (reduced
mod the length, so every `i` denotes a valid draw). -/
def provide_hint (secret_word guessed_letters : List Char) (i : Nat) : Option Char :=
  let u := unguessedLetters secret_word guessed_letters
  if h : u = [] then none
  else some (u.get ⟨i % u.length, Nat.mod_lt i (List.length_pos.mpr h)⟩)

/-- The hint branch of the game loop (lines 302-322). -/
def applyHint (s : RoundState) (i : Nat) : RoundState :=
  match provide_hint s.secret_word s.guessed_letters i with
  | some hint_letter =>
    { s with guessed_letters := hint_letter :: s.guessed_letters,
             hints_available := s.hints_available - 1,
             remaining_lives := s.remaining_lives - 1,
             score := s.score + SCORE_HINT_PENALTY,
             word_progress := updateProgress s.secret_word s.word_progress hint_letter }
  | none => s

/-- The win/loss check after each action (lines 341-356): win is tested
before loss, and the win bonus is added on the win branch. -/
def checkTerminal (s : RoundState) : RoundState :=
  if '_' ∉ s.word_progress then
    { s with score := s.score + SCORE_WIN_BONUS, status := .won }
  else if s.remaining_lives ≤ 0 then { s with status := .lost }
  else s

/-- One player action: a letter guess or a hint request (the hint carries
the random draw). -/
inductive Action where
  | guessLetter (c : Char)
  | hintReq (i : Nat)

/-- One iteration of the game loop: apply the action, then the terminal check. -/
def applyAction (s : RoundState) (a : Action) : RoundState :=
  checkTerminal (match a with
    | .guessLetter c => applyGuess s c
    | .hintReq i => applyHint s i)

/-- Membership in `string.ascii_uppercase`. -/
def isUpperAZ (c : Char) : Prop := 'A' ≤ c ∧ c ≤ 'Z'

instance (c : Char) : Decidable (isUpperAZ c) :=
  inferInstanceAs (Decidable (_ ∧ _))

/-- The validation `get_player_action` performs before the engine sees the
action: a fresh uppercase letter, or a hint request with hints left. -/
def ValidAction (s : RoundState) : Action → Prop
  | .guessLetter c => isUpperAZ c ∧ c ∉ s.guessed_letters ∧ c ∉ s.incorrect_guesses
  | .hintReq _ => 0 < s.hints_available

/-- The state set up at the top of `play_hangman` (lines 273-284). -/
def initState (secret_word : List Char) (difficulty : String) (lives : Int) : RoundState where
  secret_word := secret_word
  guessed_letters := []
  incorrect_guesses := []
  word_progress := List.replicate secret_word.length '_'
  remaining_lives := lives
  hints_available := if difficulty ≠ "hard" then 1 else 0
  score := 0
  status := .inProgress

/-- Round states the game loop can actually be in: an initial state for a
word from the word store (nonempty, all A-Z) and a configured difficulty,
or the result of one validated action applied to a reachable in-progress
state. -/
inductive Reachable : RoundState → Prop where
  | init (secret_word : List Char) (difficulty : String) (lives : Int)
      (hdiff : DIFFICULTY_LEVELS.lookup difficulty = some lives)
      (hne : secret_word ≠ [])
      (hAZ : ∀ c ∈ secret_word, isUpperAZ c) :
      Reachable (initState secret_word difficulty lives)
  | step (s : RoundState) (a : Action) (hs : Reachable s)
      (hip : s.status = .inProgress) (hv : ValidAction s a) :
      Reachable (applyAction s a)

/-- The shape `word_progress` always has: position `i` shows the secret's
letter when that letter has been guessed (or hinted), else the marker. -/
def maskWord (secret_word guessed_letters : List Char) : List Char :=
  secret_word.map fun letter => if letter ∈ guessed_letters then letter else '_'

/-- Distribution of `random.choice l`: the chance of drawing the value `c`
is the number of indices holding `c` over the length of the list. -/
def choiceProb (l : List Char) (c : Char) : ℚ :=
  (((List.range l.length).filter fun i => decide (l.get? i = some c)).length : ℚ) /
    (l.length : ℚ)

/-! ### Word store (`load_words`, lines 109-148) -/

/-- Python `str.strip`: drop whitespace from both ends. -/
def pyStrip (l : List Char) : List Char :=
  ((l.dropWhile Char.isWhitespace).reverse.dropWhile Char.isWhitespace).reverse

/-- Python `str.upper` on the character range the game uses. -/
def pyUpper (l : List Char) : List Char := l.map Char.toUpper

/-- The validation `all(c in string.ascii_uppercase for c in line)`. -/
def isValidWord (l : List Char) : Bool := l.all fun c => decide ('A' ≤ c) && decide (c ≤ 'Z')

/-- The characters of the literal `"[CATEGORY "`. -/
def headerTag : List Char := "[CATEGORY ".toList

/-- Test `line.startswith("[CATEGORY ") and line.endswith("]")`. -/
def isHeaderLine (l : List Char) : Bool :=
  decide (l.take 10 = headerTag) && decide (l.getLast? = some ']')

/-- Extraction `line[len("[CATEGORY "):-1].strip()`. -/
def headerName (l : List Char) : List Char := pyStrip ((l.drop 10).dropLast)

/-- Assignment `categories[name] = []`: reset an existing key in place, else append
(Python dicts keep insertion order and keep a re-assigned key's position). -/
def setCategory (cats : List (List Char × List (List Char))) (k : List Char) :
    List (List Char × List (List Char)) :=
  if cats.any fun p => decide (p.1 = k) then
    cats.map fun p => if p.1 = k then (p.1, []) else p
  else cats ++ [(k, [])]

/-- Append step `categories[current_category].append(line)`. -/
def addWord (cats : List (List Char × List (List Char))) (k w : List Char) :
    List (List Char × List (List Char)) :=
  cats.map fun p => if p.1 = k then (p.1, p.2 ++ [w]) else p

/-- The loop state of `load_words`: the category dictionary, the current
category (`none` before the first header), and the warnings printed so far
(category, rejected line), most recent first. -/
structure LoadState where
  categories : List (List Char × List (List Char))
  current_category : Option (List Char)
  warnings : List (List Char × List Char)
deriving DecidableEq

/-- One iteration of the `for line in f` loop of `load_words`.  Note the
guard `elif current_category and line and not line.startswith("#")`: with no
current category (or an empty-named one, falsy in Python) a non-header line
is dropped with no warning. -/
def processLine (st : LoadState) (raw : List Char) : LoadState :=
  let line := pyUpper (pyStrip raw)
  if line = [] then st
  else if isHeaderLine line then
    let name := headerName line
    { st with current_category := some name, categories := setCategory st.categories name }
  else
    match st.current_category with
    | some c =>
      if c = [] then st
      else if line.head? = some '#' then st
      else if isValidWord line then { st with categories := addWord st.categories c line }
      else { st with warnings := (c, line) :: st.warnings }
    | none => st

/-- The parsing pass of `load_words` over the file's lines. -/
def parseLines (lines : List (List Char)) : LoadState :=
  lines.foldl processLine ⟨[], none, []⟩

/-- Model of `load_words` after the parsing pass: abort (`sys.exit(1)`, modelled as
`Except.error`) when no categories were found, drop empty categories, abort
when none with a valid word remain, else return the mapping. -/
def load_words (lines : List (List Char)) :
    Except Unit (List (List Char × List (List Char))) :=
  let st := parseLines lines
  if st.categories = [] then .error ()
  else
    let filtered := st.categories.filter fun p => !p.2.isEmpty
    if filtered = [] then .error () else .ok filtered

/-! ### Theorems -/

/-- Helper: the Boolean skip test of `main` as a proposition. -/
theorem skipCondition_iff (scores : List Entry) (s : Int) :
    skipCondition scores s = true ↔
      (¬ ∃ hs ∈ scores, hs.score < s) ∧ MAX_HIGH_SCORES ≤ scores.length := by
  simp [skipCondition, List.any_eq_true]

/-- A sample list of eleven identical entries. -/
def elevenEntries : List Entry := List.replicate 11 ⟨"p", 1, "ANIMALS", "Easy"⟩

/-- C6: the persisted high-score list is sorted descending by score, has at
most 10 entries, and saving more than 10 entries persists exactly 10.
(Write failures are caught and reported by the source's `except` blocks;
the persisting function itself is total.) -/
theorem save_writes_sorted_top10 (scores : List Entry) :
    List.Sorted scoreGE (save_high_scores scores).2 ∧
    (save_high_scores scores).2.length ≤ MAX_HIGH_SCORES ∧
    (MAX_HIGH_SCORES < scores.length →
      (save_high_scores scores).2.length = MAX_HIGH_SCORES) := by
  have hsorted : List.Sorted scoreGE (sortDesc scores) :=
    List.sorted_insertionSort scoreGE scores
  have hlen : (sortDesc scores).length = scores.length :=
    List.length_insertionSort scoreGE scores
  refine ⟨?_, ?_, ?_⟩
  · exact List.Pairwise.sublist (List.take_sublist _ _) hsorted
  · simp [save_high_scores, List.length_take]
  · intro h
    simp only [save_high_scores, List.length_take, hlen]
    omega

/-- C6 witness: eleven entries persist as exactly ten. -/
theorem save_writes_sorted_top10_witness :
    MAX_HIGH_SCORES < elevenEntries.length ∧
      (save_high_scores elevenEntries).2.length = MAX_HIGH_SCORES :=
  ⟨by decide, (save_writes_sorted_top10 elevenEntries).2.2 (by decide)⟩

/-- C7: loading high scores yields the empty list when the file is absent or
its contents do not decode, and the (total) loader signals no error. -/
theorem load_high_scores_absent_or_bad (decode : String → Option (List Entry))
    (file : Option String)
    (h : file = none ∨ ∃ s, file = some s ∧ decode s = none) :
    load_high_scores decode file = [] := by
  rcases h with h | ⟨s, hf, hd⟩
  · subst h; rfl
  · subst hf; simp [load_high_scores, hd]

/-- C7 witness: a present but undecodable file loads as the empty list. -/
theorem load_high_scores_absent_or_bad_witness :
    ((some "not json" : Option String) = none ∨
      ∃ s, (some "not json" : Option String) = some s ∧
        (fun _ : String => (none : Option (List Entry))) s = none) ∧
    load_high_scores (fun _ => none) (some "not json") = [] :=
  ⟨Or.inr ⟨"not json", rfl, rfl⟩,
    load_high_scores_absent_or_bad (fun _ => none) (some "not json")
      (Or.inr ⟨"not json", rfl, rfl⟩)⟩

/-- C10: saving sorts the caller's list in place but truncates only the
persisted copy: the in-memory list keeps every entry (a sorted permutation
of the input, same length), the file gets its 10-entry prefix, a session
list can exceed 10 entries, and the list the session keeps after the
post-round block is never shorter than before. -/
theorem save_leaves_memory_untruncated :
    (∀ scores : List Entry,
      ((save_high_scores scores).1).Perm scores ∧
      ((save_high_scores scores).1).length = scores.length ∧
      List.Sorted scoreGE (save_high_scores scores).1 ∧
      (save_high_scores scores).2 = ((save_high_scores scores).1).take MAX_HIGH_SCORES) ∧
    (∃ scores : List Entry, MAX_HIGH_SCORES < ((save_high_scores scores).1).length) ∧
    (∀ (result : GameResult) (scores : List Entry) (nm : String),
      scores.length ≤ ((afterRound result scores nm).2).length) := by
  refine ⟨fun scores => ⟨List.perm_insertionSort scoreGE scores,
      List.length_insertionSort scoreGE scores,
      List.sorted_insertionSort scoreGE scores, rfl⟩, ⟨elevenEntries, ?_⟩, ?_⟩
  · show MAX_HIGH_SCORES < (sortDesc elevenEntries).length
    rw [sortDesc, List.length_insertionSort]
    decide
  · intro result scores nm
    by_cases hc : (result.won || decide (0 < result.score)) = true
    · by_cases hq : skipCondition scores result.score = true
      · simp [afterRound, hc, hq]
      · by_cases hn : pyStripStr nm = ""
        · simp [afterRound, hc, hq, hn]
        · simp [afterRound, hc, hq, hn, save_high_scores, sortDesc,
            List.length_insertionSort]
    · simp [afterRound, hc]

/-- C1: after a round that was won or scored positive, the name prompt is
skipped (message only) exactly when no existing entry scores strictly below
the round's score and the list already has at least 10 entries; otherwise a
blank name declines and a non-blank name appends the entry and persists the
list through `save_high_scores`. -/
theorem highscore_offer_rule (result : GameResult) (scores : List Entry)
    (nameInput : String) (hpos : result.won = true ∨ 0 < result.score) :
    ((afterRound result scores nameInput).1 = .skippedFull ↔
      (¬ ∃ hs ∈ scores, hs.score < result.score) ∧
        MAX_HIGH_SCORES ≤ scores.length) ∧
    (¬ ((¬ ∃ hs ∈ scores, hs.score < result.score) ∧
          MAX_HIGH_SCORES ≤ scores.length) →
      (pyStripStr nameInput = "" → afterRound result scores nameInput = (.declined, scores)) ∧
      (pyStripStr nameInput ≠ "" →
        afterRound result scores nameInput =
          (.saved, (save_high_scores (scores ++
            [⟨pyStripStr nameInput, result.score, result.category,
              pyCapitalize result.difficulty⟩])).1))) := by
  have hc : (result.won || decide (0 < result.score)) = true := by
    rcases hpos with h | h
    · simp [h]
    · simp [h]
  by_cases hq : skipCondition scores result.score = true
  · refine ⟨?_, fun hn => absurd ((skipCondition_iff scores result.score).mp hq) hn⟩
    have hr := (skipCondition_iff scores result.score).mp hq
    simp [afterRound, hc, hq, hr]
  · have hr : ¬ ((¬ ∃ hs ∈ scores, hs.score < result.score) ∧
        MAX_HIGH_SCORES ≤ scores.length) :=
      fun hx => hq ((skipCondition_iff scores result.score).mpr hx)
    have hr2 : (∀ x ∈ scores, result.score ≤ x.score) →
        scores.length < MAX_HIGH_SCORES := by
      intro hall
      by_contra hlen
      exact hr ⟨fun ⟨x, hx, hlt⟩ => absurd hlt (not_lt.mpr (hall x hx)),
        Nat.le_of_not_lt hlen⟩
    refine ⟨?_, fun _ => ⟨fun hn => ?_, fun hn => ?_⟩⟩
    · by_cases hn : pyStripStr nameInput = ""
      · simp only [afterRound, hc, hq, hn]
        simp
        exact hr2
      · simp only [afterRound, hc, hq, hn]
        simp [hn]
        exact hr2
    · simp [afterRound, hc, hq, hn]
    · simp [afterRound, hc, hq, hn]

/-- C1 witness: a won round with score 75 against an empty table is prompted,
and the name "Bob" appends and persists. -/
theorem highscore_offer_rule_witness :
    ((true : Bool) = true ∨ 0 < (75 : Int)) ∧
    afterRound ⟨true, 75, "ANIMALS", "easy"⟩ [] "Bob" =
      (.saved, (save_high_scores ([] ++
        [⟨"Bob", 75, "ANIMALS", pyCapitalize "easy"⟩])).1) :=
  ⟨Or.inl rfl, by
    have h := ((highscore_offer_rule ⟨true, 75, "ANIMALS", "easy"⟩ [] "Bob"
        (Or.inl rfl)).2 (by decide)).2 (by decide)
    simpa using h⟩

/-- Helper: a configured difficulty grants at least one life. -/
theorem lookup_lives {d : String} {v : Int}
    (h : DIFFICULTY_LEVELS.lookup d = some v) : 1 ≤ v := by
  simp only [DIFFICULTY_LEVELS, List.lookup] at h
  split at h
  · cases h; decide
  · split at h
    · cases h; decide
    · split at h
      · cases h; decide
      · cases h

/-- Helper: the terminal check never changes the lives counter. -/
theorem checkTerminal_lives (s : RoundState) :
    (checkTerminal s).remaining_lives = s.remaining_lives := by
  unfold checkTerminal
  split_ifs <;> rfl

/-- Helper: a state still in progress after the terminal check was left
unchanged by it and has strictly positive lives. -/
theorem checkTerminal_inProgress {s : RoundState}
    (h : (checkTerminal s).status = .inProgress) :
    checkTerminal s = s ∧ 0 < s.remaining_lives := by
  by_cases h1 : '_' ∉ s.word_progress
  · exfalso
    simp [checkTerminal, h1] at h
  · by_cases h2 : s.remaining_lives ≤ 0
    · exfalso
      simp [checkTerminal, h1, h2] at h
    · exact ⟨by simp [checkTerminal, h1, h2], by omega⟩

/-- Helper: a guess costs at most one life. -/
theorem applyGuess_lives (s : RoundState) (c : Char) :
    s.remaining_lives - 1 ≤ (applyGuess s c).remaining_lives ∧
      (applyGuess s c).remaining_lives ≤ s.remaining_lives := by
  unfold applyGuess
  split_ifs <;> constructor <;> simp <;> try omega

/-- Helper: a hint costs at most one life. -/
theorem applyHint_lives (s : RoundState) (i : Nat) :
    s.remaining_lives - 1 ≤ (applyHint s i).remaining_lives ∧
      (applyHint s i).remaining_lives ≤ s.remaining_lives := by
  unfold applyHint
  cases hp : provide_hint s.secret_word s.guessed_letters i <;> constructor <;> simp <;>
    try omega

/-- Helper: the lives invariant of reachable states. -/
theorem reachable_lives {s : RoundState} (h : Reachable s) :
    0 ≤ s.remaining_lives ∧ (s.status = .inProgress → 1 ≤ s.remaining_lives) := by
  induction h with
  | init secret_word difficulty lives hdiff hne hAZ =>
    have hl := lookup_lives hdiff
    exact ⟨by simp [initState]; omega, fun _ => by simp [initState]; omega⟩
  | step s a hs hip hv ih =>
    have hlive : 1 ≤ s.remaining_lives := ih.2 hip
    cases a with
    | guessLetter c =>
      have hact : applyAction s (.guessLetter c) = checkTerminal (applyGuess s c) := rfl
      have hbound := applyGuess_lives s c
      refine ⟨?_, fun hip2 => ?_⟩
      · rw [hact, checkTerminal_lives]
        omega
      · rw [hact] at hip2 ⊢
        obtain ⟨heq, hpos⟩ := checkTerminal_inProgress hip2
        rw [heq]
        omega
    | hintReq i =>
      have hact : applyAction s (.hintReq i) = checkTerminal (applyHint s i) := rfl
      have hbound := applyHint_lives s i
      refine ⟨?_, fun hip2 => ?_⟩
      · rw [hact, checkTerminal_lives]
        omega
      · rw [hact] at hip2 ⊢
        obtain ⟨heq, hpos⟩ := checkTerminal_inProgress hip2
        rw [heq]
        omega

/-- C3: in every reachable round state lives are non-negative, every loop
iteration is non-increasing on lives, and the terminal check tests the win
condition first: a fully revealed buffer wins and adds the 50-point bonus
regardless of lives, else non-positive lives lose, else play continues. -/
theorem lives_invariant_win_first :
    (∀ s : RoundState, Reachable s → 0 ≤ s.remaining_lives) ∧
    (∀ (s : RoundState) (a : Action),
      (applyAction s a).remaining_lives ≤ s.remaining_lives) ∧
    (∀ s : RoundState,
      ('_' ∉ s.word_progress →
        checkTerminal s = { s with score := s.score + 50, status := .won }) ∧
      ('_' ∈ s.word_progress → s.remaining_lives ≤ 0 →
        checkTerminal s = { s with status := .lost }) ∧
      ('_' ∈ s.word_progress → 0 < s.remaining_lives → checkTerminal s = s)) := by
  refine ⟨fun s h => (reachable_lives h).1, fun s a => ?_, fun s => ⟨?_, ?_, ?_⟩⟩
  · cases a with
    | guessLetter c =>
      have hact : applyAction s (.guessLetter c) = checkTerminal (applyGuess s c) := rfl
      rw [hact, checkTerminal_lives]
      exact (applyGuess_lives s c).2
    | hintReq i =>
      have hact : applyAction s (.hintReq i) = checkTerminal (applyHint s i) := rfl
      rw [hact, checkTerminal_lives]
      exact (applyHint_lives s i).2
  · intro h1
    simp [checkTerminal, h1, SCORE_WIN_BONUS]
  · intro h1 h2
    simp [checkTerminal, h1, h2]
  · intro h1 h2
    simp [checkTerminal, h1]
    omega

/-- A freshly started easy round on the word CAT. -/
def sampleState : RoundState :=
  ⟨"CAT".toList, [], [], List.replicate 3 '_', 8, 1, 0, .inProgress⟩

/-- C3 witness: the initial easy-difficulty CAT state is reachable and has
non-negative lives. -/
theorem lives_invariant_win_first_witness :
    Reachable (initState "CAT".toList "easy" 8) ∧
      0 ≤ (initState "CAT".toList "easy" 8).remaining_lives := by
  have hre : Reachable (initState "CAT".toList "easy" 8) :=
    Reachable.init "CAT".toList "easy" 8 (by decide) (by decide) (by decide)
  exact ⟨hre, lives_invariant_win_first.1 _ hre⟩

/-- Helper: the reveal loop turns the mask for `guessed` into the mask for
`g :: guessed`. -/
theorem updateProgress_mask (secret_word guessed_letters : List Char) (g : Char) :
    updateProgress secret_word (maskWord secret_word guessed_letters) g =
      maskWord secret_word (g :: guessed_letters) := by
  induction secret_word with
  | nil => rfl
  | cons c cs ih =>
    simp only [maskWord, List.map_cons, updateProgress, List.zipWith_cons_cons]
    refine congrArg₂ List.cons ?_ ?_
    · by_cases hc : c = g
      · subst hc
        simp [List.mem_cons]
      · simp [hc, List.mem_cons]
    · exact ih

/-- Helper: an uppercase letter is not the reveal marker. -/
theorem isUpperAZ_ne_underscore {c : Char} (h : isUpperAZ c) : c ≠ '_' := by
  intro he
  subst he
  revert h
  decide

/-- Helper: guessing a fresh letter removes exactly its occurrences from the
unrevealed count of the mask. -/
theorem mask_count_underscore (secret_word guessed_letters : List Char) (g : Char)
    (hAZ : ∀ c ∈ secret_word, isUpperAZ c) (hg : g ∉ guessed_letters) :
    (maskWord secret_word guessed_letters).count '_' =
      (maskWord secret_word (g :: guessed_letters)).count '_' + secret_word.count g := by
  induction secret_word with
  | nil => rfl
  | cons c cs ih =>
    have hAZc := hAZ c (List.mem_cons_self c cs)
    have hAZcs : ∀ x ∈ cs, isUpperAZ x := fun x hx => hAZ x (List.mem_cons_of_mem c hx)
    have hcne : c ≠ '_' := isUpperAZ_ne_underscore hAZc
    have ihcs := ih hAZcs
    simp only [maskWord, List.map_cons, List.count_cons, List.mem_cons] at ihcs ⊢
    by_cases hm : c ∈ guessed_letters
    · have hcg : c ≠ g := fun he => hg (he ▸ hm)
      simp [hm, hcg, hcne] at ihcs ⊢
      omega
    · by_cases hcg : c = g
      · subst hcg
        simp [hm, hcne] at ihcs ⊢
        omega
      · simp [hm, hcg, hcne] at ihcs ⊢
        omega

/-- C2: applying a fresh letter guess to a round state whose reveal buffer
matches its guess history: a letter of the word reveals exactly its
positions (the unrevealed count drops by its occurrence count), adds 10,
and leaves lives and the incorrect set alone; a letter not in the word
leaves the buffer alone, joins the incorrect set, costs one life, and
subtracts 5. -/
theorem guess_transition (s : RoundState) (g : Char)
    (hmask : s.word_progress = maskWord s.secret_word s.guessed_letters)
    (hAZ : ∀ c ∈ s.secret_word, isUpperAZ c)
    (hg1 : g ∉ s.guessed_letters) (hg2 : g ∉ s.incorrect_guesses) :
    (g ∈ s.secret_word →
      (applyGuess s g).word_progress = maskWord s.secret_word (g :: s.guessed_letters) ∧
      s.word_progress.count '_' =
        (applyGuess s g).word_progress.count '_' + s.secret_word.count g ∧
      (applyGuess s g).score = s.score + 10 ∧
      (applyGuess s g).remaining_lives = s.remaining_lives ∧
      (applyGuess s g).incorrect_guesses = s.incorrect_guesses) ∧
    (g ∉ s.secret_word →
      (applyGuess s g).word_progress = s.word_progress ∧
      (applyGuess s g).incorrect_guesses = g :: s.incorrect_guesses ∧
      (applyGuess s g).remaining_lives = s.remaining_lives - 1 ∧
      (applyGuess s g).score = s.score - 5) := by
  constructor
  · intro hin
    have hprog : (applyGuess s g).word_progress =
        maskWord s.secret_word (g :: s.guessed_letters) := by
      simp only [applyGuess, if_pos hin]
      rw [hmask, updateProgress_mask]
    refine ⟨hprog, ?_, ?_, ?_, ?_⟩
    · rw [hmask, hprog]
      exact mask_count_underscore s.secret_word s.guessed_letters g hAZ hg1
    · simp [applyGuess, if_pos hin, SCORE_CORRECT_GUESS]
    · simp [applyGuess, if_pos hin]
    · simp [applyGuess, if_pos hin]
  · intro hout
    refine ⟨?_, ?_, ?_, ?_⟩
    · simp [applyGuess, if_neg hout]
    · simp [applyGuess, if_neg hout]
    · simp [applyGuess, if_neg hout]
    · simp only [applyGuess, if_neg hout]
      simp [SCORE_INCORRECT_GUESS]
      omega

/-- C2 witness: guessing A on a fresh CAT round adds 10, keeps the lives,
and the unrevealed count drops by one. -/
theorem guess_transition_witness :
    (sampleState.word_progress =
        maskWord sampleState.secret_word sampleState.guessed_letters) ∧
    'A' ∉ sampleState.guessed_letters ∧
    (applyGuess sampleState 'A').score = sampleState.score + 10 ∧
    (applyGuess sampleState 'A').remaining_lives = sampleState.remaining_lives ∧
    sampleState.word_progress.count '_' =
      (applyGuess sampleState 'A').word_progress.count '_' +
        sampleState.secret_word.count 'A' := by
  have h := guess_transition sampleState 'A' (by decide) (by decide) (by decide) (by decide)
  have hin : 'A' ∈ sampleState.secret_word := by decide
  exact ⟨by decide, by decide, (h.1 hin).2.2.1, (h.1 hin).2.2.2.1, (h.1 hin).2.1⟩

/-- Helper: a letter absent from the guess history does not appear in the
mask of an all-uppercase word. -/
theorem not_mem_mask {secret_word guessed_letters : List Char} {h : Char}
    (hAZh : isUpperAZ h) (hng : h ∉ guessed_letters) :
    h ∉ maskWord secret_word guessed_letters := by
  intro hmem
  obtain ⟨c, _, hval⟩ := List.mem_map.mp hmem
  by_cases hcg : c ∈ guessed_letters
  · rw [if_pos hcg] at hval
    exact hng (hval ▸ hcg)
  · rw [if_neg hcg] at hval
    exact isUpperAZ_ne_underscore hAZh hval.symm

/-- C4: with a hint left and at least one unrevealed letter, a hint yields a
letter (for any random draw), consumes exactly one hint and one life,
subtracts 15, the letter was neither guessed before nor visible in the
reveal buffer, and all its occurrences become revealed. -/
theorem hint_transition (s : RoundState) (i : Nat)
    (hmask : s.word_progress = maskWord s.secret_word s.guessed_letters)
    (hAZ : ∀ c ∈ s.secret_word, isUpperAZ c)
    (hhints : 0 < s.hints_available)
    (hun : unguessedLetters s.secret_word s.guessed_letters ≠ []) :
    ∃ hl, provide_hint s.secret_word s.guessed_letters i = some hl ∧
      (applyHint s i).hints_available = s.hints_available - 1 ∧
      (applyHint s i).remaining_lives = s.remaining_lives - 1 ∧
      (applyHint s i).score = s.score - 15 ∧
      hl ∉ s.guessed_letters ∧ hl ∉ s.word_progress ∧
      (applyHint s i).word_progress =
        maskWord s.secret_word (hl :: s.guessed_letters) := by
  have hlen : 0 < (unguessedLetters s.secret_word s.guessed_letters).length :=
    List.length_pos.mpr hun
  refine ⟨(unguessedLetters s.secret_word s.guessed_letters).get
    ⟨i % _, Nat.mod_lt i hlen⟩, ?_, ?_⟩
  · simp only [provide_hint]
    rw [dif_neg hun]
  · have hp : provide_hint s.secret_word s.guessed_letters i =
        some ((unguessedLetters s.secret_word s.guessed_letters).get
          ⟨i % _, Nat.mod_lt i hlen⟩) := by
      simp only [provide_hint]
      rw [dif_neg hun]
    have hmem := List.get_mem (unguessedLetters s.secret_word s.guessed_letters)
      _ (Nat.mod_lt i hlen)
    have hfil := List.mem_filter.mp hmem
    have hng : (unguessedLetters s.secret_word s.guessed_letters).get
        ⟨i % _, Nat.mod_lt i hlen⟩ ∉ s.guessed_letters := by
      have := hfil.2
      simpa using this
    refine ⟨?_, ?_, ?_, hng, ?_, ?_⟩
    · simp [applyHint, hp]
    · simp [applyHint, hp]
    · simp only [applyHint, hp]
      simp [SCORE_HINT_PENALTY]
      omega
    · rw [hmask]
      exact not_mem_mask (hAZ _ hfil.1) hng
    · simp only [applyHint, hp]
      rw [hmask, updateProgress_mask]

/-- C4 witness: the first hint on a fresh CAT round (draw 0) reveals C,
costs a hint, a life and 15 points. -/
theorem hint_transition_witness :
    (0 < sampleState.hints_available ∧
      unguessedLetters sampleState.secret_word sampleState.guessed_letters ≠ []) ∧
    ∃ hl, provide_hint sampleState.secret_word sampleState.guessed_letters 0 = some hl ∧
      (applyHint sampleState 0).hints_available = sampleState.hints_available - 1 ∧
      (applyHint sampleState 0).remaining_lives = sampleState.remaining_lives - 1 ∧
      (applyHint sampleState 0).score = sampleState.score - 15 ∧
      hl ∉ sampleState.guessed_letters ∧ hl ∉ sampleState.word_progress ∧
      (applyHint sampleState 0).word_progress =
        maskWord sampleState.secret_word (hl :: sampleState.guessed_letters) :=
  ⟨⟨by decide, by decide⟩,
    hint_transition sampleState 0 (by decide) (by decide) (by decide) (by decide)⟩

/-- Helper: the number of indices of a list holding a value is the value's
occurrence count. -/
theorem count_indices (l : List Char) (c : Char) :
    ((List.range l.length).filter fun i => decide (l.get? i = some c)).length =
      l.count c := by
  induction l with
  | nil => rfl
  | cons a t ih =>
    have hcomp : ((fun i => decide ((a :: t).get? i = some c)) ∘ Nat.succ) =
        fun i => decide (t.get? i = some c) := by
      funext i
      simp
    rw [List.length_cons, List.range_succ_eq_map, List.filter_cons, List.filter_map, hcomp]
    simp only [List.get?_eq_getElem?] at ih
    by_cases hac : a = c
    · simp [hac, ih, List.count_cons]
    · simp [hac, ih, List.count_cons, Ne.symm hac]

/-- C5 counterexample: with secret word ABB and nothing guessed, A and B are
both distinct unrevealed letters, yet `random.choice` picks them with
different probabilities (1/3 versus 2/3): the draw is uniform over
occurrences, not over distinct letters. -/
theorem hint_not_uniform_over_distinct :
    'A' ∈ unguessedLetters ("ABB".toList) [] ∧
    'B' ∈ unguessedLetters ("ABB".toList) [] ∧
    choiceProb (unguessedLetters ("ABB".toList) []) 'A' ≠
      choiceProb (unguessedLetters ("ABB".toList) []) 'B' := by
  refine ⟨by decide, by decide, ?_⟩
  have hc1 : (unguessedLetters ("ABB".toList) []).count 'A' = 1 := by decide
  have hc2 : (unguessedLetters ("ABB".toList) []).count 'B' = 2 := by decide
  have hlen : (unguessedLetters ("ABB".toList) []).length = 3 := by decide
  have e1 : choiceProb (unguessedLetters ("ABB".toList) []) 'A' = (1 : ℚ) / 3 := by
    unfold choiceProb
    rw [count_indices, hc1, hlen]
    norm_num
  have e2 : choiceProb (unguessedLetters ("ABB".toList) []) 'B' = (2 : ℚ) / 3 := by
    unfold choiceProb
    rw [count_indices, hc2, hlen]
    norm_num
  rw [e1, e2]
  norm_num

/-- C5 amended: `provide_hint` draws uniformly over the unrevealed
*occurrences* of the secret word, so each distinct unrevealed letter is
selected with probability proportional to its occurrence count (occurrence
count over number of unrevealed positions), not with equal probability. -/
theorem hint_uniform_over_occurrences (secret_word guessed_letters : List Char)
    (c : Char) :
    choiceProb (unguessedLetters secret_word guessed_letters) c =
      ((unguessedLetters secret_word guessed_letters).count c : ℚ) /
        ((unguessedLetters secret_word guessed_letters).length : ℚ) := by
  unfold choiceProb
  rw [count_indices]

/-- Helper: resetting a category keeps every stored word valid. -/
theorem setCategory_valid {cats : List (List Char × List (List Char))} {k : List Char}
    (hinv : ∀ p ∈ cats, ∀ w ∈ p.2, isValidWord w = true) :
    ∀ p ∈ setCategory cats k, ∀ w ∈ p.2, isValidWord w = true := by
  intro p hp w hw
  unfold setCategory at hp
  split_ifs at hp with h
  · obtain ⟨q, hq, hpq⟩ := List.mem_map.mp hp
    by_cases hk : q.1 = k
    · rw [if_pos hk] at hpq
      rw [← hpq] at hw
      cases hw
    · rw [if_neg hk] at hpq
      exact hinv q hq w (hpq ▸ hw)
  · rcases List.mem_append.mp hp with hin | hin
    · exact hinv p hin w hw
    · have : p = (k, []) := by simpa using hin
      rw [this] at hw
      cases hw

/-- Helper: appending a validated word keeps every stored word valid. -/
theorem addWord_valid {cats : List (List Char × List (List Char))} {k w0 : List Char}
    (hw0 : isValidWord w0 = true)
    (hinv : ∀ p ∈ cats, ∀ w ∈ p.2, isValidWord w = true) :
    ∀ p ∈ addWord cats k w0, ∀ w ∈ p.2, isValidWord w = true := by
  intro p hp w hw
  obtain ⟨q, hq, hpq⟩ := List.mem_map.mp hp
  by_cases hk : q.1 = k
  · rw [if_pos hk] at hpq
    rw [← hpq] at hw
    rcases List.mem_append.mp hw with hin | hin
    · exact hinv q hq w hin
    · have : w = w0 := by simpa using hin
      exact this ▸ hw0
  · rw [if_neg hk] at hpq
    exact hinv q hq w (hpq ▸ hw)

/-- Helper: one parsed line keeps every stored word valid. -/
theorem processLine_valid (st : LoadState) (raw : List Char)
    (hinv : ∀ p ∈ st.categories, ∀ w ∈ p.2, isValidWord w = true) :
    ∀ p ∈ (processLine st raw).categories, ∀ w ∈ p.2, isValidWord w = true := by
  unfold processLine
  by_cases h0 : pyUpper (pyStrip raw) = []
  · simpa [h0] using hinv
  · by_cases hh : isHeaderLine (pyUpper (pyStrip raw)) = true
    · simpa [h0, hh] using setCategory_valid hinv
    · cases hcc : st.current_category with
      | none => simpa [h0, hh, hcc] using hinv
      | some c =>
        by_cases hce : c = []
        · simpa [h0, hh, hcc, hce] using hinv
        · by_cases hhash : (pyUpper (pyStrip raw)).head? = some '#'
          · simpa [h0, hh, hcc, hce, hhash] using hinv
          · by_cases hval : isValidWord (pyUpper (pyStrip raw)) = true
            · simpa [h0, hh, hcc, hce, hhash, hval] using addWord_valid hval hinv
            · simpa [h0, hh, hcc, hce, hhash, hval] using hinv

/-- Helper: every word accumulated over the whole parse is valid. -/
theorem parseLines_valid (lines : List (List Char)) :
    ∀ p ∈ (parseLines lines).categories, ∀ w ∈ p.2, isValidWord w = true := by
  have key : ∀ (ls : List (List Char)) (st : LoadState),
      (∀ p ∈ st.categories, ∀ w ∈ p.2, isValidWord w = true) →
      ∀ p ∈ (ls.foldl processLine st).categories, ∀ w ∈ p.2, isValidWord w = true := by
    intro ls
    induction ls with
    | nil => exact fun st h => h
    | cons l rest ih =>
      intro st h
      exact ih (processLine st l) (processLine_valid st l h)
  exact key lines ⟨[], none, []⟩ (by simp)

/-- C8: whenever `load_words` succeeds, every returned category is nonempty
and all its words are pure A-Z; and when no category retains a valid word
after filtering, `load_words` aborts (exits nonzero) instead of returning. -/
theorem load_words_valid :
    (∀ lines result, load_words lines = .ok result →
      ∀ p ∈ result, p.2 ≠ [] ∧ ∀ w ∈ p.2, isValidWord w = true) ∧
    (∀ lines,
      ((parseLines lines).categories.filter fun p => !p.2.isEmpty) = [] →
      load_words lines = .error ()) := by
  constructor
  · intro lines result hok p hp
    unfold load_words at hok
    by_cases h1 : (parseLines lines).categories = []
    · rw [if_pos h1] at hok
      cases hok
    · rw [if_neg h1] at hok
      by_cases h2 : ((parseLines lines).categories.filter fun p => !p.2.isEmpty) = []
      · rw [if_pos h2] at hok
        cases hok
      · rw [if_neg h2] at hok
        injection hok with hres
        rw [← hres] at hp
        have hmem := List.mem_filter.mp hp
        refine ⟨?_, fun w hw => parseLines_valid lines p hmem.1 w hw⟩
        have := hmem.2
        simpa [List.isEmpty_iff] using this
  · intro lines hf
    unfold load_words
    by_cases h1 : (parseLines lines).categories = []
    · rw [if_pos h1]
    · rw [if_neg h1, if_pos hf]

/-- A two-line word file: one category header, one word. -/
def sampleLines : List (List Char) := ["[CATEGORY ANIMALS]".toList, "CAT".toList]

/-- The mapping `load_words` produces for `sampleLines`. -/
def sampleResult : List (List Char × List (List Char)) :=
  [("ANIMALS".toList, ["CAT".toList])]

/-- C8 witness: loading the two-line file succeeds with one nonempty
category of valid words. -/
theorem load_words_valid_witness :
    load_words sampleLines = .ok sampleResult ∧
    ∀ p ∈ sampleResult, p.2 ≠ [] ∧ ∀ w ∈ p.2, isValidWord w = true :=
  ⟨rfl, load_words_valid.1 sampleLines sampleResult rfl⟩

/-- C9: a non-header line seen before any category header leaves the parse
state (categories, current category and warnings) completely unchanged,
while an invalid word line inside a named category is recorded as a warning
(and adds no word). -/
theorem preheader_lines_dropped :
    (∀ (st : LoadState) (raw : List Char), st.current_category = none →
      isHeaderLine (pyUpper (pyStrip raw)) = false →
      processLine st raw = st) ∧
    (∀ (st : LoadState) (c raw : List Char), st.current_category = some c → c ≠ [] →
      pyUpper (pyStrip raw) ≠ [] →
      isHeaderLine (pyUpper (pyStrip raw)) = false →
      (pyUpper (pyStrip raw)).head? ≠ some '#' →
      isValidWord (pyUpper (pyStrip raw)) = false →
      (processLine st raw).warnings = (c, pyUpper (pyStrip raw)) :: st.warnings ∧
      (processLine st raw).categories = st.categories) := by
  constructor
  · intro st raw hcc hnh
    by_cases h0 : pyUpper (pyStrip raw) = []
    · simp [processLine, h0]
    · simp [processLine, h0, hnh, hcc]
  · intro st c raw hcc hce h0 hnh hhash hval
    constructor
    · simp [processLine, h0, hnh, hcc, hce, hhash, hval]
    · simp [processLine, h0, hnh, hcc, hce, hhash, hval]

/-- C9 witness: the word line CAT before any header is dropped without a
trace, while the invalid line X1 inside category A warns. -/
theorem preheader_lines_dropped_witness :
    ((⟨[], none, []⟩ : LoadState).current_category = none ∧
      isHeaderLine (pyUpper (pyStrip ("CAT".toList))) = false ∧
      processLine ⟨[], none, []⟩ ("CAT".toList) = ⟨[], none, []⟩) ∧
    ((⟨[("A".toList, [])], some ("A".toList), []⟩ : LoadState).current_category =
        some ("A".toList) ∧
      isValidWord (pyUpper (pyStrip ("X1".toList))) = false ∧
      (processLine ⟨[("A".toList, [])], some ("A".toList), []⟩ ("X1".toList)).warnings =
        ("A".toList, pyUpper (pyStrip ("X1".toList))) :: []) :=
  ⟨⟨rfl, by decide,
      preheader_lines_dropped.1 ⟨[], none, []⟩ ("CAT".toList) rfl (by decide)⟩,
    ⟨rfl, by decide,
      (preheader_lines_dropped.2 ⟨[("A".toList, [])], some ("A".toList), []⟩
        ("A".toList) ("X1".toList) rfl (by decide) (by decide) (by decide)
        (by decide) (by decide)).1⟩⟩

end Hangman
